import Mathlib

/-!
Verification of the trading repository's backtest simulation core.

Shallow embedding of:
- `src/backtesting/engine.py` (`run_backtest`, the single-asset engine),
- `src/backtesting/portfolio_engine.py` (`run_portfolio_backtest`),
- `src/backtesting/metrics.py` (`compute_metrics`),
- `src/dashboard/page_modules/pnl_analysis.py` (`calculate_pnl`, FIFO ledger).

Monetary quantities are rationals (Python floats are modelled exactly;
no floating-point rounding is claimed).  Timestamps are natural numbers
(bar indices).  Pandas NaN/missing cells are modelled as `Option`
values, and the single-asset engine's `float(row.get(k, 0.0) or 0.0)`
normalisation is modelled by taking the bar fields as plain rationals
with missing data encoded as `0`, exactly the value that expression
produces for absent data.
-/

namespace Trading

/-- One OHLC bar as consumed by the single-asset engine, after the
`float(row.get("open", 0.0) or 0.0)` normalisation (missing → 0).
The engine never reads `high`, so it is omitted here. -/
structure Bar where
  open_ : ℚ
  low : ℚ
  close : ℚ
deriving DecidableEq

/-- One record of the single-asset engine's trade log
(`trades.append({...})` in `run_backtest`). -/
structure Trade where
  timestamp : ℕ
  side : String
  price : ℚ
  amount : ℚ
  commission : ℚ
deriving DecidableEq

/-- Signal cleaning, `signals.copy().fillna(0).apply(lambda x: int(x) if x in (-1,0,1) else 0)`:
missing values become 0, values outside {-1,0,1} become 0. -/
def coerceSignal (x : Option ℚ) : Int :=
  match x with
  | none => 0
  | some v => if v = -1 then -1 else if v = 0 then 0 else if v = 1 then 1 else 0

/-- The single-asset engine's loop state, together with its two output
traces (`equity_list`, `trades`), which are append-only. -/
structure BTState where
  cash : ℚ
  position : ℚ
  entry_price : Option ℚ
  last_signal : Int
  equity_list : List ℚ
  trades : List Trade
deriving DecidableEq

/-- Initial state of `run_backtest` (`cash = initial_cash`, `position = 0.0`,
`entry_price = None`, `last_signal = 0`, empty traces). -/
def initState (initial_cash : ℚ) : BTState :=
  ⟨initial_cash, 0, none, 0, [], []⟩

/-- The signal-driven part of one loop iteration of `run_backtest`:
the entry branch, the exit branch, the `last_signal` update and the
equity append.  Reached only when the stop-loss did not fire. -/
def stepSignal (commission_rate : ℚ) (t : ℕ) (bar : Bar) (signal : Int)
    (st : BTState) : BTState :=
  let st1 :=
    if st.last_signal ≤ 0 ∧ signal = 1 ∧ bar.open_ > 0 then
      -- Entry: position = cash*(1-commission_rate)/price_open; cash → 0
      let position := st.cash * (1 - commission_rate) / bar.open_
      { st with
        entry_price := some bar.open_
        position := position
        trades := st.trades ++
          [⟨t, "BUY", bar.open_, position, st.cash * commission_rate⟩]
        cash := 0 }
    else if st.last_signal = 1 ∧ signal ≤ 0 ∧ st.position > 0 ∧ bar.open_ > 0 then
      -- Exit: gross = position*price_open; cash = gross*(1-commission_rate)
      let gross := st.position * bar.open_
      { st with
        cash := gross * (1 - commission_rate)
        trades := st.trades ++
          [⟨t, "SELL", bar.open_, st.position, gross * commission_rate⟩]
        position := 0 }
    else st
  { st1 with
    last_signal := signal
    equity_list := st1.equity_list ++ [st1.cash + st1.position * bar.close] }

/-- One full loop iteration of `run_backtest`: the stop-loss check first
(`position > 0 and stop_loss > 0 and entry_price is not None`, then
`price_low <= stop_price` forces the exit at exactly the stop price and
`continue`s, suppressing the signal branches), otherwise `stepSignal`. -/
def stepBar (commission_rate stop_loss : ℚ) (t : ℕ) (bar : Bar) (signal : Int)
    (st : BTState) : BTState :=
  if st.position > 0 ∧ stop_loss > 0 then
    match st.entry_price with
    | some ep =>
      let stop_price := ep * (1 - stop_loss)
      if bar.low ≤ stop_price then
        let gross := st.position * stop_price
        { cash := gross * (1 - commission_rate)
          position := 0
          entry_price := st.entry_price
          last_signal := 0
          equity_list := st.equity_list ++ [gross * (1 - commission_rate)]
          trades := st.trades ++
            [⟨t, "SELL (SL)", stop_price, st.position, gross * commission_rate⟩] }
      else stepSignal commission_rate t bar signal st
    | none => stepSignal commission_rate t bar signal st
  else stepSignal commission_rate t bar signal st

/-- The bar loop of `run_backtest`, bars paired with their (already
coerced) signals, `t` the running bar index. -/
def runBars (commission_rate stop_loss : ℚ) :
    ℕ → List (Bar × Int) → BTState → BTState
  | _, [], st => st
  | t, (bar, sig) :: rest, st =>
      runBars commission_rate stop_loss (t + 1) rest
        (stepBar commission_rate stop_loss t bar sig st)

/-- Function `run_backtest` from `src/backtesting/engine.py`: coerce the raw
signal series, then walk the bars in order.  The result carries the
final loop state including the `equity_list` and `trades` traces
(the pandas post-processing columns `returns`/`peak`/`drawdown` are
derived views of `equity_list` and are not needed by the claims). -/
def run_backtest (bars : List Bar) (signals : List (Option ℚ))
    (initial_cash commission_rate stop_loss : ℚ) : BTState :=
  runBars commission_rate stop_loss 0
    (bars.zip (signals.map coerceSignal)) (initState initial_cash)

/-- Whether a trade-log record is a BUY (entries); `"SELL"` and
`"SELL (SL)"` records are the non-BUY sides the engine emits. -/
def isBuy (t : Trade) : Bool := t.side == "BUY"

/-- Strict alternation of a trade log: no two adjacent records on the
same side of the BUY / non-BUY divide. -/
def altOK : List Trade → Bool
  | [] => true
  | [_] => true
  | a :: b :: rest => (isBuy a != isBuy b) && altOK (b :: rest)

/-- Whether the most recent record of a trade log is a BUY (false for
an empty log). -/
def lastIsBuy (l : List Trade) : Bool :=
  match l.getLast? with
  | some tr => isBuy tr
  | none => false

/-! Portfolio engine (`src/backtesting/portfolio_engine.py`) -/

/-- One symbol's OHLC cells at one timestamp of the pivoted
`combined_df`; `none` models a NaN / absent cell (the outer join across
symbols).  The engine reads `open_`, `low` and `close` only. -/
structure PBar where
  open_ : Option ℚ
  high : Option ℚ
  low : Option ℚ
  close : Option ℚ

/-- One held position of the portfolio engine:
`positions[symbol] = {'amount': ..., 'entry_price': ...}`. -/
structure PPos where
  amount : ℚ
  entry_price : ℚ
deriving DecidableEq

/-- One record of the portfolio engine's trade log. -/
structure PTrade where
  timestamp : ℕ
  symbol : String
  side : String
  price : ℚ
  amount : ℚ
  commission : ℚ
deriving DecidableEq

/-- Loop state of `run_portfolio_backtest`.  `positions` is the Python
dict in insertion order (a symbol appears at most once). -/
structure PState where
  cash : ℚ
  positions : List (String × PPos)
  equity_list : List ℚ
  trades : List PTrade
deriving DecidableEq

/-- Step 1 of the per-timestamp loop: mark open positions to market
using each symbol's close where present (`pd.notna`), giving
`total_equity = cash + current_portfolio_value`. -/
def totalEquityAt (price : String → ℕ → PBar) (t : ℕ) (cash : ℚ)
    (positions : List (String × PPos)) : ℚ :=
  cash + positions.foldl (fun acc sp =>
    match (price sp.1 t).close with
    | some close_price => acc + sp.2.amount * close_price
    | none => acc) 0

/-- Step 2, the stop-loss pass: walk the open positions in order,
fire every position whose bar low is present and `≤ entry_price *
(1 - stop_loss)`, crediting `cash += gross - commission` and recording
`"SELL (SL)"`; afterwards delete the fired symbols. -/
def slBody (commission_rate stop_loss : ℚ) (price : String → ℕ → PBar) (t : ℕ)
    (acc : ℚ × List PTrade × List String) (sp : String × PPos) :
    ℚ × List PTrade × List String :=
  let stop_price := sp.2.entry_price * (1 - stop_loss)
  match (price sp.1 t).low with
  | some low_price =>
    if low_price ≤ stop_price then
      let gross := sp.2.amount * stop_price
      let commission_amt := gross * commission_rate
      (acc.1 + gross - commission_amt,
       acc.2.1 ++ [⟨t, sp.1, "SELL (SL)", stop_price, sp.2.amount, commission_amt⟩],
       acc.2.2 ++ [sp.1])
    else acc
  | none => acc

/-- Step 2 assembled: run `slBody` over the open positions starting
from the current cash/trade log, then delete the fired symbols
(`symbols_to_exit`). -/
def slPass (commission_rate stop_loss : ℚ) (price : String → ℕ → PBar)
    (t : ℕ) (st : PState) : PState :=
  let acc := st.positions.foldl (slBody commission_rate stop_loss price t)
    (st.cash, st.trades, [])
  { st with
    cash := acc.1
    trades := acc.2.1
    positions := st.positions.filter (fun sp => sp.1 ∉ acc.2.2) }

/-- Step 3, the signal pass: for every symbol of `price_data` in key
order, either the exit branch (held and `signal <= 0`, selling at the
open if present) or the entry branch (not held and `signal == 1`:
`capital_to_allocate = total_equity * allocation`, taken only when
`cash >= capital_to_allocate` and the open is present; commission is
deducted from the allocated capital and cash is debited by the full
`capital_to_allocate`).  `signal_data[symbol].get(idx, 0)` defaults a
missing value to 0 but applies no further coercion. -/
def sigBody (allocation commission_rate : ℚ) (price : String → ℕ → PBar)
    (signal : String → ℕ → Option ℚ) (t : ℕ) (total_equity : ℚ)
    (st : PState) (sym : String) : PState :=
  match st.positions.lookup sym with
    | some pos =>
      let sig := (signal sym t).getD 0
      if sig ≤ 0 then
        match (price sym t).open_ with
        | some price_open =>
          let gross := pos.amount * price_open
          let commission_amt := gross * commission_rate
          { st with
            cash := st.cash + gross - commission_amt
            trades := st.trades ++
              [⟨t, sym, "SELL", price_open, pos.amount, commission_amt⟩]
            positions := st.positions.filter (fun sp => sp.1 ≠ sym) }
        | none => st
      else st
    | none =>
      let sig := (signal sym t).getD 0
      if sig = 1 then
        let capital_to_allocate := total_equity * allocation
        if capital_to_allocate ≤ st.cash then
          match (price sym t).open_ with
          | some price_open =>
            let commission_amt := capital_to_allocate * commission_rate
            let amount_to_buy := (capital_to_allocate - commission_amt) / price_open
            { st with
              positions := st.positions ++ [(sym, ⟨amount_to_buy, price_open⟩)]
              cash := st.cash - capital_to_allocate
              trades := st.trades ++
                [⟨t, sym, "BUY", price_open, amount_to_buy, commission_amt⟩] }
          | none => st
        else st
      else st

/-- Step 3 assembled: run `sigBody` over `price_data.keys()` in order. -/
def signalPass (allocation commission_rate : ℚ) (price : String → ℕ → PBar)
    (signal : String → ℕ → Option ℚ) (t : ℕ) (total_equity : ℚ)
    (symbols : List String) (st : PState) : PState :=
  symbols.foldl (sigBody allocation commission_rate price signal t total_equity) st

/-- End of the per-timestamp loop: append
`cash + Σ pos.amount * row.get(close, 0)` to the equity trace (a
missing close contributes 0). -/
def recordEquity (price : String → ℕ → PBar) (t : ℕ) (st : PState) : PState :=
  let v := st.positions.foldl
    (fun acc sp => acc + sp.2.amount * ((price sp.1 t).close.getD 0)) 0
  { st with equity_list := st.equity_list ++ [st.cash + v] }

/-- One iteration of the portfolio engine's event loop: total equity
from closes, then the stop-loss pass, then the signal pass (which uses
the total equity computed *before* the stop-loss sales), then the
equity record. -/
def portfolioStep (allocation commission_rate stop_loss : ℚ)
    (price : String → ℕ → PBar) (signal : String → ℕ → Option ℚ)
    (symbols : List String) (st : PState) (t : ℕ) : PState :=
  let total_equity := totalEquityAt price t st.cash st.positions
  let st1 := slPass commission_rate stop_loss price t st
  let st2 := signalPass allocation commission_rate price signal t total_equity symbols st1
  recordEquity price t st2

/-- Function `run_portfolio_backtest` from `src/backtesting/portfolio_engine.py`.
The pandas concat/pivot data preparation is modelled by its result:
`symbols` is `price_data.keys()` in order, `timestamps` the sorted union
of the symbols' timestamps, and `price sym t` the pivoted row cells
(`none` for a NaN cell).  `signal sym t` models
`signal_data[symbol].get(t, 0)` with `none` for a missing key. -/
def run_portfolio_backtest (symbols : List String) (timestamps : List ℕ)
    (price : String → ℕ → PBar) (signal : String → ℕ → Option ℚ)
    (initial_cash allocation commission_rate stop_loss : ℚ) : PState :=
  timestamps.foldl
    (portfolioStep allocation commission_rate stop_loss price signal symbols)
    ⟨initial_cash, [], [], []⟩

/-! Performance metrics (`src/backtesting/metrics.py`) -/

/-- The dict returned by `compute_metrics`.  `annualized_return` and the
Sharpe ratio are genuine real-valued expressions (float `**` and
`sqrt`); `sharpe_ratio = none` models the `float("nan")` sentinel for a
zero standard deviation, and `max_drawdown = none` the NaN that
`.min()` yields on an empty drawdown column. -/
structure MetricsOut where
  total_return : ℚ
  annualized_return : ℝ
  sharpe_ratio : Option ℝ
  max_drawdown : Option ℚ

/-- Mean of a list of rationals, as a real (0 for an empty list, like
`pandas.Series.mean` never being reached on the paths we state). -/
noncomputable def listMean (l : List ℚ) : ℝ :=
  ((l.map (fun x => (x : ℝ))).sum) / l.length

/-- Sample standard deviation (pandas default `ddof=1`) of a list of
rationals, as a real. -/
noncomputable def listStd (l : List ℚ) : ℝ :=
  Real.sqrt (((l.map (fun x => ((x : ℝ) - listMean l) ^ 2)).sum) / (l.length - 1))

/-- Function `compute_metrics` from `src/backtesting/metrics.py`, taking the
`equity`, `returns` and `drawdown` columns of the equity DataFrame.
The very first statement evaluates `equity_df["equity"].iloc[-1]` and
`.iloc[0]`, which raise `IndexError` on a zero-row frame — modelled as
`none`.  On that raising path the later
`... if n_periods > 0 else 0.0` fallback for `annualized_return` is
never reached. -/
noncomputable def compute_metrics (equity returns drawdown : List ℚ)
    (periods_per_year : ℕ) : Option MetricsOut :=
  match equity with
  | [] => none
  | e0 :: rest =>
    let total_return : ℚ := (e0 :: rest).getLast (by simp) / e0 - 1
    let n_periods : ℕ := (e0 :: rest).length
    let annualized_return : ℝ :=
      (1 + (total_return : ℝ)) ^ ((periods_per_year : ℝ) / (n_periods : ℝ)) - 1
    let sharpe_ratio : Option ℝ :=
      if listStd returns = 0 then none
      else some (listMean returns / listStd returns * Real.sqrt periods_per_year)
    some ⟨total_return, annualized_return, sharpe_ratio, drawdown.min?⟩

/-! FIFO realized-P&L ledger
(`calculate_pnl` in `src/dashboard/page_modules/pnl_analysis.py`) -/

/-- One raw fill of the trade history handed to `calculate_pnl`. -/
structure Fill where
  timestamp : ℕ
  symbol : String
  side : String
  amount : ℚ
  price : ℚ
deriving DecidableEq

/-- One open lot in a symbol's FIFO queue
(`{'amount': ..., 'price': ...}`). -/
structure Lot where
  amount : ℚ
  price : ℚ
deriving DecidableEq

/-- Per-symbol accumulator
(`{'buys': [...], 'total_cost': ..., 'total_amount': ...}`). -/
structure SymAcc where
  buys : List Lot
  total_cost : ℚ
  total_amount : ℚ
deriving DecidableEq

/-- One output record of `calculate_pnl`
(`{'timestamp': ..., 'symbol': ..., 'pnl': ...}`). -/
structure Closed where
  timestamp : ℕ
  symbol : String
  pnl : ℚ
deriving DecidableEq

/-- State threaded through the fill loop of `calculate_pnl`. -/
structure PnlAcc where
  positions : List (String × SymAcc)
  closed : List Closed
deriving DecidableEq

/-- Loop `while sell_amount > 0 and positions[symbol]['buys']:` loop:
match against the oldest lot, realize `match_amount * (sell_price -
lot.price)`, pop the lot when its remainder drops below the `1e-9`
tolerance.  When the front lot is not popped its remainder is `≥ 1e-9`,
which forces `match_amount = sell_amount` and hence a remaining
`sell_amount` of 0, so the loop exits — the non-recursive branch below
is exactly that case. -/
def matchSell (sell_price : ℚ) : ℚ → List Lot → ℚ × List Lot
  | sell_amount, buys =>
    if 0 < sell_amount then
      match buys with
      | [] => (0, [])
      | b :: rest =>
        let match_amount := min sell_amount b.amount
        let pnl := match_amount * sell_price - match_amount * b.price
        let remaining := b.amount - match_amount
        if remaining < 1 / 1000000000 then
          let r := matchSell sell_price (sell_amount - match_amount) rest
          (pnl + r.1, r.2)
        else
          (pnl, ⟨remaining, b.price⟩ :: rest)
    else (0, buys)

/-- The body of `for index, trade in trades_df.iterrows():` — note the
symbol's accumulator is created *before* the side is examined, so an
unrecognized side still creates an empty accumulator; only the exact
lowercase strings `'buy'` and `'sell'` trade. -/
def processFill (acc : PnlAcc) (f : Fill) : PnlAcc :=
  let positions :=
    if (acc.positions.lookup f.symbol).isSome then acc.positions
    else acc.positions ++ [(f.symbol, ⟨[], 0, 0⟩)]
  if f.side = "buy" then
    let sp := (positions.lookup f.symbol).getD ⟨[], 0, 0⟩
    let sp' : SymAcc :=
      ⟨sp.buys ++ [⟨f.amount, f.price⟩],
       sp.total_cost + f.amount * f.price,
       sp.total_amount + f.amount⟩
    { acc with positions := positions.map (fun p => if p.1 = f.symbol then (p.1, sp') else p) }
  else if f.side = "sell" then
    let sp := (positions.lookup f.symbol).getD ⟨[], 0, 0⟩
    let r := matchSell f.price f.amount sp.buys
    { positions := positions.map
        (fun p => if p.1 = f.symbol then (p.1, ⟨r.2, sp.total_cost, sp.total_amount⟩) else p)
      closed := acc.closed ++ [⟨f.timestamp, f.symbol, r.1⟩] }
  else { acc with positions := positions }

/-- The fill loop of `calculate_pnl` over the whole history. -/
def calculate_pnl_state (fills : List Fill) : PnlAcc :=
  fills.foldl processFill ⟨[], []⟩

/-- Function `calculate_pnl`: empty input or no closed trades returns the
`(pd.DataFrame(), pd.DataFrame())` pair, otherwise the closed-trade
P&L trace together with the input trades (the transient `positions`
dict is dropped). -/
def calculate_pnl (fills : List Fill) : List Closed × List Fill :=
  if fills = [] then ([], [])
  else
    let acc := calculate_pnl_state fills
    if acc.closed = [] then ([], []) else (acc.closed, fills)

/-- Loop invariant of the single-asset engine on positive-price data
with commission in [0,1): cash and position are non-negative and
mutually exclusive (the spec §3 cash/position alternation), an open
position always carries `last_signal = 1`, a positive recorded entry
price and a BUY as the most recent trade, a flat state has positive
cash and a non-BUY most recent trade, the trade log alternates, and
every recorded equity point is positive. -/
def Inv (st : BTState) : Prop :=
  0 ≤ st.cash ∧ 0 ≤ st.position ∧
  (0 < st.position →
    st.cash = 0 ∧ st.last_signal = 1 ∧ lastIsBuy st.trades = true ∧
    ∃ p, st.entry_price = some p ∧ 0 < p) ∧
  (st.position = 0 → 0 < st.cash ∧ lastIsBuy st.trades = false) ∧
  altOK st.trades = true ∧
  (∀ e ∈ st.equity_list, 0 < e)

/-- Commission-scaling relation: a state of the run at commission rate
`c` equals the corresponding state of the run at commission 0 with
cash and position scaled by `s` (which will be `(1-c)^k` after `k`
trades), all decision-relevant fields equal, the same number of
trades, and the latest equity point scaled by `s`. -/
def Rel (s : ℚ) (st0 stc : BTState) : Prop :=
  stc.cash = s * st0.cash ∧
  stc.position = s * st0.position ∧
  stc.entry_price = st0.entry_price ∧
  stc.last_signal = st0.last_signal ∧
  stc.trades.length = st0.trades.length ∧
  stc.equity_list.getLast? = st0.equity_list.getLast?.map (fun e => s * e)

/-- Positivity of an optional price cell: a present value is positive
(an absent cell imposes nothing).  This is the PriceBar data-model
constraint "open/high/low/close (positive floats)" on sparse data. -/
def posOpt : Option ℚ → Prop
  | none => True
  | some v => 0 < v

/-- Loop invariant of the portfolio engine: non-negative shared cash,
and every open position has a non-negative amount, a positive entry
price, and a symbol drawn from `price_data.keys()`. -/
def PInv (symbols : List String) (st : PState) : Prop :=
  0 ≤ st.cash ∧
  ∀ sp ∈ st.positions, 0 ≤ sp.2.amount ∧ 0 < sp.2.entry_price ∧ sp.1 ∈ symbols

/-! Concrete inputs used by the example-scenario claims, the
counterexamples and the witnesses. -/

/-- Price bars of the spec's §8 example scenario:
`[open=100,low=95,close=102], [open=103,low=100,close=105],
[open=104,low=99,close=98]`. -/
def c1bars : List Bar := [⟨100, 95, 102⟩, ⟨103, 100, 105⟩, ⟨104, 99, 98⟩]

/-- Signals `[1, 0, -1]` of the example scenario. -/
def c1sigs : List (Option ℚ) := [some 1, some 0, some (-1)]

/-- Bars whose middle bar has a missing open (normalised to 0 by the
engine): the exit branch's `price_open > 0` guard then suppresses the
signal exit while the position is still open. -/
def c6bars : List Bar := [⟨100, 95, 102⟩, ⟨0, 1, 1⟩, ⟨50, 40, 60⟩]

/-- Signals `[1, 0, 1]` driving a second BUY after the suppressed exit. -/
def c6sigs : List (Option ℚ) := [some 1, some 0, some 1]

/-- Two-timestamp single-symbol price data for the portfolio engine
(all cells present and positive). -/
def px5 : String → ℕ → PBar := fun _ t =>
  if t = 0 then ⟨some 100, some 100, some 100, some 100⟩
  else ⟨some 110, some 110, some 105, some 110⟩

/-- Portfolio signal series `{0: 1, 1: 2}` — the value 2 is outside
{-1,0,1}. -/
def sigA5 : String → ℕ → Option ℚ := fun _ t => if t = 0 then some 1 else some 2

/-- Portfolio signal series `{0: 1, 1: 0}` — agrees with `sigA5` after
coercion to {-1,0,1}. -/
def sigB5 : String → ℕ → Option ℚ := fun _ t => if t = 0 then some 1 else some 0

/-- Price data whose low (90) is at or below the entry price 100 of the
held position while staying above any positive stop distance. -/
def px9 : String → ℕ → PBar := fun _ _ => ⟨some 100, some 100, some 90, some 95⟩

/-- Flat signal series (always 0). -/
def sig9 : String → ℕ → Option ℚ := fun _ _ => some 0

/-- One flat bar (all prices 1) for the no-trade run. -/
def c8bars : List Bar := [⟨1, 1, 1⟩]

/-- One flat (0) signal: no trade ever fires. -/
def c8sigs : List (Option ℚ) := [some 0]

/-! Claim C1 -/

/-- C1 as stated is false on the code: in the §8 example scenario the
signal transitions 1→0 at the second bar (open 103), so the SELL
executes at 103, not 104, and final cash is 1030, not 1040. -/
theorem c1_counterexample :
    ¬ ((∃ tr ∈ (run_backtest c1bars c1sigs 1000 0 0).trades,
          tr.side = "SELL" ∧ tr.price = 104) ∧
       (run_backtest c1bars c1sigs 1000 0 0).cash = 1040) := by
  have h : (run_backtest c1bars c1sigs 1000 0 0).cash = 1030 := by
    norm_num [run_backtest, runBars, stepBar, stepSignal, coerceSignal, initState,
      c1bars, c1sigs]
  intro hc
  rw [h] at hc
  norm_num at hc

/-- C1 (amended): on the example scenario the engine records a BUY at
100 for 10 units and a SELL at 103 (the open of the bar where the
signal transitions 1→0) for 10 units, final cash is 1030, and the
equity trace has length 3. -/
theorem c1_example_scenario :
    (run_backtest c1bars c1sigs 1000 0 0).trades =
      [⟨0, "BUY", 100, 10, 0⟩, ⟨1, "SELL", 103, 10, 0⟩] ∧
    (run_backtest c1bars c1sigs 1000 0 0).cash = 1030 ∧
    (run_backtest c1bars c1sigs 1000 0 0).equity_list.length = 3 := by
  norm_num [run_backtest, runBars, stepBar, stepSignal, coerceSignal, initState,
    c1bars, c1sigs]

/-! Claim C2 -/

/-- C2: on any bar where a position is open, `stop_loss_fraction > 0`
and the bar's low is at or below `entry_price * (1 - stop_loss)`, the
step records exactly one trade, a `"SELL (SL)"` at exactly the stop
price with proceeds `position * stop_price * (1 - commission_rate)`,
suppresses the signal branches entirely (the result does not depend on
the bar's signal), and resets `previous_signal` to 0. -/
theorem stop_loss_priority (commission_rate stop_loss : ℚ) (t : ℕ) (bar : Bar)
    (signal : Int) (st : BTState) (p : ℚ)
    (hpos : 0 < st.position) (hsl : 0 < stop_loss)
    (hep : st.entry_price = some p) (hlow : bar.low ≤ p * (1 - stop_loss)) :
    stepBar commission_rate stop_loss t bar signal st =
      { cash := st.position * (p * (1 - stop_loss)) * (1 - commission_rate)
        position := 0
        entry_price := some p
        last_signal := 0
        equity_list := st.equity_list ++
          [st.position * (p * (1 - stop_loss)) * (1 - commission_rate)]
        trades := st.trades ++
          [⟨t, "SELL (SL)", p * (1 - stop_loss), st.position,
            st.position * (p * (1 - stop_loss)) * commission_rate⟩] } := by
  simp only [stepBar, hep, if_pos (And.intro hpos hsl), if_pos hlow]

/-- Witness for C2 at a concrete input: position 10 entered at 100,
stop fraction 1/20 (stop price 95), bar low 90 breaches the stop. -/
theorem stop_loss_priority_witness :
    stepBar 0 (1/20) 0 ⟨50, 90, 95⟩ 1 ⟨0, 10, some 100, 1, [], []⟩ =
      { cash := 10 * (100 * (1 - 1/20)) * (1 - 0)
        position := 0
        entry_price := some 100
        last_signal := 0
        equity_list := [] ++ [10 * (100 * (1 - 1/20)) * (1 - 0)]
        trades := [] ++ [⟨0, "SELL (SL)", 100 * (1 - 1/20), 10,
          10 * (100 * (1 - 1/20)) * 0⟩] } := by
  exact stop_loss_priority 0 (1/20) 0 ⟨50, 90, 95⟩ 1 ⟨0, 10, some 100, 1, [], []⟩ 100
    (by norm_num) (by norm_num) rfl (by norm_num)

/-! Claim C4 -/

/-- C4: the code, not the claim, is at fault here.  On an empty equity
trace `compute_metrics` evaluates `equity_df["equity"].iloc[-1]` first,
which raises `IndexError` (modelled as `none`); the
`if n_periods > 0 else 0.0` fallback for the annualized return is
unreachable dead code on that path. -/
theorem compute_metrics_empty_raises (returns drawdown : List ℚ)
    (periods_per_year : ℕ) :
    compute_metrics [] returns drawdown periods_per_year = none := rfl

/-! Claim C7 -/

/-- C7: the FIFO ledger on BUY 10@100, BUY 5@110, SELL 12@120 produces
the single output record with realized pnl 220 and leaves exactly the
open lot {amount: 3, price: 110} for the symbol. -/
theorem fifo_example :
    (calculate_pnl_state
        [⟨0, "X", "buy", 10, 100⟩, ⟨1, "X", "buy", 5, 110⟩,
         ⟨2, "X", "sell", 12, 120⟩]).closed = [⟨2, "X", 220⟩] ∧
    ((calculate_pnl_state
        [⟨0, "X", "buy", 10, 100⟩, ⟨1, "X", "buy", 5, 110⟩,
         ⟨2, "X", "sell", 12, 120⟩]).positions.lookup "X").map SymAcc.buys =
      some [⟨3, 110⟩] := by
  have hs : ("sell" = "buy") = False := by decide
  norm_num [calculate_pnl_state, processFill, matchSell, List.lookup, hs]

/-! Claim C5 -/

/-- C5 as stated is false on the code: the portfolio engine only
defaults *missing* signal values to 0 (`signal_data[symbol].get(idx, 0)`)
and uses out-of-range values as-is.  The series {0:1, 1:2} and
{0:1, 1:0} agree after coercion to {-1,0,1}, yet the value 2 fails the
`signal <= 0` exit test, so the first run keeps the position (1 trade)
while the second sells (2 trades): the trade traces differ. -/
theorem c5_counterexample :
    (∀ sym t, coerceSignal (sigA5 sym t) = coerceSignal (sigB5 sym t)) ∧
    (run_portfolio_backtest ["A"] [0, 1] px5 sigA5 1000 1 0 (1/2)).trades.length = 1 ∧
    (run_portfolio_backtest ["A"] [0, 1] px5 sigB5 1000 1 0 (1/2)).trades.length = 2 := by
  refine ⟨fun sym t => ?_, ?_, ?_⟩
  · by_cases h : t = 0 <;> norm_num [sigA5, sigB5, coerceSignal, h]
  · norm_num [run_portfolio_backtest, portfolioStep, totalEquityAt, slPass, slBody,
      signalPass, sigBody, recordEquity, px5, sigA5, List.lookup]
  · norm_num [run_portfolio_backtest, portfolioStep, totalEquityAt, slPass, slBody,
      signalPass, sigBody, recordEquity, px5, sigB5, List.lookup]

/-- C5 (amended): the single-asset engine coerces every missing or
out-of-range signal value to 0 before use, so two raw signal series
that agree after coercion produce identical runs (state, equity trace
and trade trace); the portfolio engine does not share this property. -/
theorem run_backtest_signal_coercion (bars : List Bar) (s1 s2 : List (Option ℚ))
    (initial_cash commission_rate stop_loss : ℚ)
    (h : s1.map coerceSignal = s2.map coerceSignal) :
    run_backtest bars s1 initial_cash commission_rate stop_loss =
      run_backtest bars s2 initial_cash commission_rate stop_loss := by
  unfold run_backtest
  rw [h]

/-- Witness for the amended C5: the raw series `[5]` and `[None]` both
coerce to `[0]` and yield identical runs. -/
theorem run_backtest_signal_coercion_witness :
    ([some (5:ℚ)].map coerceSignal = [(none : Option ℚ)].map coerceSignal) ∧
    run_backtest c8bars [some 5] 1000 0 0 = run_backtest c8bars [none] 1000 0 0 := by
  refine ⟨by norm_num [coerceSignal], ?_⟩
  exact run_backtest_signal_coercion c8bars [some 5] [none] 1000 0 0
    (by norm_num [coerceSignal])

/-! Claim C10 -/

/-- Helper: folding `processFill` over fills none of which has side
`'buy'` or `'sell'` appends no closed record and creates only empty
lot queues. -/
theorem pnlFold_unknown_aux (fills : List Fill)
    (h : ∀ f ∈ fills, f.side ≠ "buy" ∧ f.side ≠ "sell") :
    ∀ acc : PnlAcc, acc.closed = [] → (∀ sp ∈ acc.positions, sp.2.buys = []) →
      (fills.foldl processFill acc).closed = [] ∧
      (∀ sp ∈ (fills.foldl processFill acc).positions, sp.2.buys = []) := by
  induction fills with
  | nil => intro acc h1 h2; exact ⟨h1, h2⟩
  | cons f rest ih =>
    intro acc h1 h2
    have hf := h f (List.mem_cons_self f rest)
    have hrest : ∀ g ∈ rest, g.side ≠ "buy" ∧ g.side ≠ "sell" :=
      fun g hg => h g (List.mem_cons_of_mem f hg)
    have hstep : (processFill acc f).closed = [] ∧
        ∀ sp ∈ (processFill acc f).positions, sp.2.buys = [] := by
      unfold processFill
      rw [if_neg hf.1, if_neg hf.2]
      refine ⟨h1, ?_⟩
      by_cases hl : (acc.positions.lookup f.symbol).isSome
      · simpa [hl] using h2
      · simp only [hl, if_neg]
        intro sp hsp
        rcases List.mem_append.mp hsp with hsp | hsp
        · exact h2 sp hsp
        · simp only [List.mem_singleton] at hsp
          subst hsp
          rfl
    simpa using ih hrest (processFill acc f) hstep.1 hstep.2

/-- C10: the FIFO ledger recognizes only the lowercase side strings
`'buy'` and `'sell'`; a history whose sides are all something else
(such as the engines' `'BUY'`, `'SELL'`, `'SELL (SL)'`) produces no
closed-trade record, enqueues no lot, and `calculate_pnl` returns the
empty pair. -/
theorem pnl_unknown_sides (fills : List Fill)
    (h : ∀ f ∈ fills, f.side ≠ "buy" ∧ f.side ≠ "sell") :
    (calculate_pnl_state fills).closed = [] ∧
    (∀ sp ∈ (calculate_pnl_state fills).positions, sp.2.buys = []) ∧
    calculate_pnl fills = ([], []) := by
  have haux := pnlFold_unknown_aux fills h ⟨[], []⟩ rfl (by intro sp hsp; cases hsp)
  refine ⟨haux.1, haux.2, ?_⟩
  unfold calculate_pnl
  by_cases hf : fills = []
  · rw [if_pos hf]
  · rw [if_neg hf]
    have : (calculate_pnl_state fills).closed = [] := haux.1
    rw [if_pos this]

/-- Witness for C10: a two-fill history with the engine-style sides
`'BUY'` and `'SELL'` yields no closed trades, no lots, and the empty
result pair. -/
theorem pnl_unknown_sides_witness :
    (calculate_pnl_state
        [⟨0, "X", "BUY", 10, 100⟩, ⟨1, "X", "SELL", 10, 120⟩]).closed = [] ∧
    (∀ sp ∈ (calculate_pnl_state
        [⟨0, "X", "BUY", 10, 100⟩, ⟨1, "X", "SELL", 10, 120⟩]).positions,
      sp.2.buys = []) ∧
    calculate_pnl [⟨0, "X", "BUY", 10, 100⟩, ⟨1, "X", "SELL", 10, 120⟩] = ([], []) := by
  refine pnl_unknown_sides _ ?_
  intro f hf
  rcases List.mem_cons.mp hf with rfl | hf
  · exact ⟨by decide, by decide⟩
  rcases List.mem_cons.mp hf with rfl | hf
  · exact ⟨by decide, by decide⟩
  · cases hf

/-! Claim C9 -/

/-- Helper: one stop-loss body application preserves trade-log
membership (the body only appends). -/
theorem slBody_mem_trades (commission_rate stop_loss : ℚ)
    (price : String → ℕ → PBar) (t : ℕ)
    (acc : ℚ × List PTrade × List String) (sp : String × PPos) (tr : PTrade)
    (h : tr ∈ acc.2.1) :
    tr ∈ (slBody commission_rate stop_loss price t acc sp).2.1 := by
  unfold slBody
  rcases hl : (price sp.1 t).low with _ | lv
  · exact h
  · by_cases hle : lv ≤ sp.2.entry_price * (1 - stop_loss) <;> simp [hle, h]

/-- Helper: one stop-loss body application preserves exit-list
membership. -/
theorem slBody_mem_exit (commission_rate stop_loss : ℚ)
    (price : String → ℕ → PBar) (t : ℕ)
    (acc : ℚ × List PTrade × List String) (sp : String × PPos) (s : String)
    (h : s ∈ acc.2.2) :
    s ∈ (slBody commission_rate stop_loss price t acc sp).2.2 := by
  unfold slBody
  rcases hl : (price sp.1 t).low with _ | lv
  · exact h
  · by_cases hle : lv ≤ sp.2.entry_price * (1 - stop_loss) <;> simp [hle, h]

/-- Helper: the stop-loss fold preserves trade-log and exit-list
membership. -/
theorem slFold_mem (commission_rate stop_loss : ℚ)
    (price : String → ℕ → PBar) (t : ℕ) (l : List (String × PPos)) :
    ∀ acc, (∀ tr ∈ acc.2.1,
        tr ∈ (l.foldl (slBody commission_rate stop_loss price t) acc).2.1) ∧
      (∀ s ∈ acc.2.2,
        s ∈ (l.foldl (slBody commission_rate stop_loss price t) acc).2.2) := by
  induction l with
  | nil => exact fun acc => ⟨fun tr h => h, fun s h => h⟩
  | cons sp rest ih =>
    intro acc
    refine ⟨fun tr h => ?_, fun s h => ?_⟩ <;> rw [List.foldl_cons]
    · exact (ih _).1 tr (slBody_mem_trades commission_rate stop_loss price t acc sp tr h)
    · exact (ih _).2 s (slBody_mem_exit commission_rate stop_loss price t acc sp s h)

/-- Helper: a held position whose bar low is present and at or below
its stop price fires during the stop-loss fold: the corresponding
`"SELL (SL)"` record lands in the trade log and its symbol in the exit
list. -/
theorem slFold_fires (commission_rate stop_loss : ℚ)
    (price : String → ℕ → PBar) (t : ℕ) (l : List (String × PPos))
    (sym : String) (pos : PPos) (lv : ℚ)
    (hmem : (sym, pos) ∈ l) (hlow : (price sym t).low = some lv)
    (hle : lv ≤ pos.entry_price * (1 - stop_loss)) :
    ∀ acc,
      (⟨t, sym, "SELL (SL)", pos.entry_price * (1 - stop_loss), pos.amount,
        pos.amount * (pos.entry_price * (1 - stop_loss)) * commission_rate⟩ : PTrade) ∈
        (l.foldl (slBody commission_rate stop_loss price t) acc).2.1 ∧
      sym ∈ (l.foldl (slBody commission_rate stop_loss price t) acc).2.2 := by
  induction l with
  | nil => cases hmem
  | cons sp rest ih =>
    intro acc
    rw [List.foldl_cons]
    rcases List.mem_cons.mp hmem with heq | hmem'
    · subst heq
      have hstep : slBody commission_rate stop_loss price t acc (sym, pos) =
          (acc.1 + pos.amount * (pos.entry_price * (1 - stop_loss)) -
            pos.amount * (pos.entry_price * (1 - stop_loss)) * commission_rate,
           acc.2.1 ++ [⟨t, sym, "SELL (SL)", pos.entry_price * (1 - stop_loss),
             pos.amount, pos.amount * (pos.entry_price * (1 - stop_loss)) * commission_rate⟩],
           acc.2.2 ++ [sym]) := by
        unfold slBody
        rw [hlow]
        simp [hle]
      rw [hstep]
      constructor
      · exact (slFold_mem commission_rate stop_loss price t rest _).1 _ (by simp)
      · exact (slFold_mem commission_rate stop_loss price t rest _).2 sym (by simp)
    · exact ih hmem' _

/-- Helper: one signal-pass body application preserves trade-log
membership (the body only appends). -/
theorem sigBody_mem_trades (allocation commission_rate : ℚ)
    (price : String → ℕ → PBar) (signal : String → ℕ → Option ℚ) (t : ℕ)
    (total_equity : ℚ) (st : PState) (sym : String) (tr : PTrade)
    (h : tr ∈ st.trades) :
    tr ∈ (sigBody allocation commission_rate price signal t total_equity st sym).trades := by
  unfold sigBody
  rcases hl : st.positions.lookup sym with _ | pos
  · by_cases hs : ((signal sym t).getD 0) = 1
    · by_cases hcap : total_equity * allocation ≤ st.cash
      · rcases ho : (price sym t).open_ with _ | po <;> simp [hs, hcap, h]
      · simp [hs, hcap, h]
    · simp [hs, h]
  · by_cases hs : ((signal sym t).getD 0) ≤ 0
    · rcases ho : (price sym t).open_ with _ | po <;> simp [hs, h]
    · simp [hs, h]

/-- Helper: the signal-pass fold preserves trade-log membership. -/
theorem sigFold_mem_trades (allocation commission_rate : ℚ)
    (price : String → ℕ → PBar) (signal : String → ℕ → Option ℚ) (t : ℕ)
    (total_equity : ℚ) (symbols : List String) :
    ∀ st : PState, ∀ tr ∈ st.trades,
      tr ∈ (signalPass allocation commission_rate price signal t total_equity
        symbols st).trades := by
  induction symbols with
  | nil => exact fun st tr h => h
  | cons sym rest ih =>
    intro st tr h
    have h1 := sigBody_mem_trades allocation commission_rate price signal t
      total_equity st sym tr h
    simpa [signalPass] using
      ih (sigBody allocation commission_rate price signal t total_equity st sym) tr h1

/-- C9: the portfolio engine applies no `stop_loss > 0` guard, so
`stop_loss_fraction = 0` does not disable the stop-loss pass: on any
bar where a held symbol's low is present and at or below its entry
price, the step records a `"SELL (SL)"` trade for that symbol at
exactly the entry price and for the full held amount, and the
stop-loss pass removes the position. -/
theorem portfolio_sl_zero (allocation commission_rate : ℚ)
    (price : String → ℕ → PBar) (signal : String → ℕ → Option ℚ)
    (symbols : List String) (t : ℕ) (st : PState)
    (sym : String) (pos : PPos) (lv : ℚ)
    (hmem : (sym, pos) ∈ st.positions)
    (hlow : (price sym t).low = some lv) (hle : lv ≤ pos.entry_price) :
    (∃ tr ∈ (portfolioStep allocation commission_rate 0 price signal symbols st t).trades,
        tr.symbol = sym ∧ tr.side = "SELL (SL)" ∧ tr.price = pos.entry_price ∧
        tr.amount = pos.amount) ∧
    ∀ q : PPos, (sym, q) ∉ (slPass commission_rate 0 price t st).positions := by
  have hle' : lv ≤ pos.entry_price * (1 - 0) := by rw [sub_zero, mul_one]; exact hle
  have hf := slFold_fires commission_rate 0 price t st.positions sym pos lv hmem hlow
    hle' (st.cash, st.trades, [])
  constructor
  · refine ⟨⟨t, sym, "SELL (SL)", pos.entry_price * (1 - 0), pos.amount,
      pos.amount * (pos.entry_price * (1 - 0)) * commission_rate⟩, ?_,
      rfl, rfl, by rw [sub_zero, mul_one], rfl⟩
    show _ ∈ (recordEquity price t _).trades
    have hrec : ∀ s : PState, (recordEquity price t s).trades = s.trades := fun _ => rfl
    rw [hrec]
    refine sigFold_mem_trades allocation commission_rate price signal t _ symbols
      (slPass commission_rate 0 price t st) _ ?_
    exact hf.1
  · intro q hq
    simp only [slPass, List.mem_filter] at hq
    have h2 := hq.2
    simp only [decide_not, Bool.not_eq_true', decide_eq_false_iff_not] at h2
    exact h2 hf.2

/-- Witness for C9: one held position of 10 units entered at 100, bar
low 90 ≤ 100, stop fraction 0 — the step fires the stop at exactly
100 and removes the position. -/
theorem portfolio_sl_zero_witness :
    (∃ tr ∈ (portfolioStep 1 0 0 px9 sig9 ["A"]
        ⟨0, [("A", ⟨10, 100⟩)], [], []⟩ 0).trades,
        tr.symbol = "A" ∧ tr.side = "SELL (SL)" ∧ tr.price = 100 ∧
        tr.amount = 10) ∧
    ∀ q : PPos, ("A", q) ∉ (slPass 0 0 px9 0
        ⟨0, [("A", ⟨10, 100⟩)], [], []⟩).positions := by
  exact portfolio_sl_zero 1 0 px9 sig9 ["A"] 0 ⟨0, [("A", ⟨10, 100⟩)], [], []⟩
    "A" ⟨10, 100⟩ 90 (by simp) rfl (by norm_num)

/-! Claim C6 -/

/-- Helper: the most recent side after appending is the appended side. -/
theorem lastIsBuy_concat (l : List Trade) (x : Trade) :
    lastIsBuy (l ++ [x]) = isBuy x := by
  simp [lastIsBuy, List.getLast?_concat]

/-- Helper: appending a trade to an alternating log whose most recent
side differs keeps it alternating. -/
theorem altOK_concat (l : List Trade) (x : Trade) (h : altOK l = true)
    (hne : lastIsBuy l ≠ isBuy x) : altOK (l ++ [x]) = true := by
  induction l with
  | nil => rfl
  | cons a rest ih =>
    cases rest with
    | nil =>
      have ha : lastIsBuy [a] = isBuy a := by simpa using lastIsBuy_concat [] a
      rw [ha] at hne
      simp only [List.cons_append, List.nil_append, altOK, Bool.and_eq_true, bne_iff_ne]
      exact ⟨hne, trivial⟩
    | cons b rest' =>
      simp only [altOK, Bool.and_eq_true] at h
      have hlast : lastIsBuy (a :: b :: rest') = lastIsBuy (b :: rest') := by
        simp [lastIsBuy, List.getLast?_cons_cons]
      rw [hlast] at hne
      simp only [List.cons_append, altOK, Bool.and_eq_true]
      exact ⟨h.1, by simpa using ih h.2 hne⟩

/-- Helper: coerced signals lie in {-1, 0, 1}. -/
theorem coerceSignal_range (x : Option ℚ) :
    coerceSignal x = -1 ∨ coerceSignal x = 0 ∨ coerceSignal x = 1 := by
  rcases x with _ | v
  · exact Or.inr (Or.inl rfl)
  · simp only [coerceSignal]
    split_ifs <;> omega

/-- Helper: the signal part of a bar step preserves the loop
invariant, provided the bar's prices are positive, the signal is
coerced and the commission rate lies in [0,1). -/
theorem Inv_stepSignal (c : ℚ) (t : ℕ) (bar : Bar) (sig : Int) (st : BTState)
    (hbar : 0 < bar.open_ ∧ 0 < bar.low ∧ 0 < bar.close)
    (hsig : sig = -1 ∨ sig = 0 ∨ sig = 1)
    (hc1 : c < 1) (h : Inv st) :
    Inv (stepSignal c t bar sig st) := by
  obtain ⟨hcash, hpos, hopen, hflat, halt, heq⟩ := h
  unfold stepSignal
  by_cases h1 : st.last_signal ≤ 0 ∧ sig = 1 ∧ bar.open_ > 0
  · -- entry branch
    have hp0 : st.position = 0 := by
      by_contra hne
      have : 0 < st.position := lt_of_le_of_ne hpos (Ne.symm hne)
      have := (hopen this).2.1
      omega
    have hcpos : 0 < st.cash := (hflat hp0).1
    have hlb : lastIsBuy st.trades = false := (hflat hp0).2
    have hnewpos : 0 < st.cash * (1 - c) / bar.open_ :=
      div_pos (mul_pos hcpos (by linarith)) h1.2.2
    rw [if_pos h1]
    refine ⟨le_refl 0, le_of_lt hnewpos, ?_, ?_, ?_, ?_⟩
    · exact fun _ => ⟨rfl, h1.2.1, by rw [lastIsBuy_concat]; rfl,
        ⟨bar.open_, rfl, h1.2.2⟩⟩
    · intro hz
      exact absurd hz (ne_of_gt hnewpos)
    · exact altOK_concat _ _ halt (by rw [hlb]; simp [isBuy])
    · intro e he
      rcases List.mem_append.mp he with he | he
      · exact heq e he
      · simp only [List.mem_singleton] at he
        subst he
        have h3 : 0 < st.cash * (1 - c) / bar.open_ * bar.close :=
          mul_pos hnewpos hbar.2.2
        linarith
  · rw [if_neg h1]
    by_cases h2 : st.last_signal = 1 ∧ sig ≤ 0 ∧ st.position > 0 ∧ bar.open_ > 0
    · -- exit branch
      obtain ⟨hz, hls, hlb, _⟩ := hopen h2.2.2.1
      have hcash' : 0 < st.position * bar.open_ * (1 - c) :=
        mul_pos (mul_pos h2.2.2.1 h2.2.2.2) (by linarith)
      rw [if_pos h2]
      refine ⟨le_of_lt hcash', le_refl 0, ?_, ?_, ?_, ?_⟩
      · intro hlt
        exact absurd hlt (lt_irrefl 0)
      · exact fun _ => ⟨hcash', by rw [lastIsBuy_concat]; rfl⟩
      · exact altOK_concat _ _ halt (by rw [hlb]; simp [isBuy])
      · intro e he
        rcases List.mem_append.mp he with he | he
        · exact heq e he
        · simp only [List.mem_singleton] at he
          subst he
          simpa using hcash'
    · -- no-trade branch
      rw [if_neg h2]
      rcases eq_or_lt_of_le hpos with hp0 | hppos
      · -- flat
        obtain ⟨hcpos, hlb⟩ := hflat hp0.symm
        refine ⟨hcash, hpos, ?_, fun _ => ⟨hcpos, hlb⟩, halt, ?_⟩
        · intro hlt
          rw [← hp0] at hlt
          exact absurd hlt (lt_irrefl 0)
        · intro e he
          rcases List.mem_append.mp he with he | he
          · exact heq e he
          · simp only [List.mem_singleton] at he
            subst he
            rw [← hp0]
            simpa using hcpos
      · -- held
        obtain ⟨hz, hls, hlb, p, hep, hppr⟩ := hopen hppos
        have hsig1 : sig = 1 := by
          rcases hsig with hs | hs | hs
          · exfalso; exact h2 ⟨hls, by omega, hppos, hbar.1⟩
          · exfalso; exact h2 ⟨hls, by omega, hppos, hbar.1⟩
          · exact hs
        refine ⟨hcash, hpos, ?_, ?_, halt, ?_⟩
        · exact fun _ => ⟨hz, hsig1, hlb, ⟨p, hep, hppr⟩⟩
        · intro hzero
          rw [hzero] at hppos
          exact absurd hppos (lt_irrefl 0)
        · intro e he
          rcases List.mem_append.mp he with he | he
          · exact heq e he
          · simp only [List.mem_singleton] at he
            subst he
            have : 0 < st.position * bar.close := mul_pos hppos hbar.2.2
            rw [hz]
            linarith

/-- Helper: a full bar step (stop-loss check included) preserves the
loop invariant. -/
theorem Inv_stepBar (c sl : ℚ) (t : ℕ) (bar : Bar) (sig : Int) (st : BTState)
    (hbar : 0 < bar.open_ ∧ 0 < bar.low ∧ 0 < bar.close)
    (hsig : sig = -1 ∨ sig = 0 ∨ sig = 1)
    (hc1 : c < 1) (h : Inv st) :
    Inv (stepBar c sl t bar sig st) := by
  unfold stepBar
  by_cases h1 : st.position > 0 ∧ sl > 0
  · rw [if_pos h1]
    obtain ⟨hz, hls, hlb, p, hep, hppr⟩ := h.2.2.1 h1.1
    rw [hep]
    dsimp only
    by_cases h2 : bar.low ≤ p * (1 - sl)
    · rw [if_pos h2]
      have hstop : 0 < p * (1 - sl) := lt_of_lt_of_le hbar.2.1 h2
      have hcash' : 0 < st.position * (p * (1 - sl)) * (1 - c) :=
        mul_pos (mul_pos h1.1 hstop) (by linarith)
      refine ⟨le_of_lt hcash', le_refl 0, ?_, ?_, ?_, ?_⟩
      · intro hlt
        exact absurd hlt (lt_irrefl 0)
      · exact fun _ => ⟨hcash', by rw [lastIsBuy_concat]; rfl⟩
      · exact altOK_concat _ _ h.2.2.2.2.1 (by rw [hlb]; simp [isBuy])
      · intro e he
        rcases List.mem_append.mp he with he | he
        · exact h.2.2.2.2.2 e he
        · simp only [List.mem_singleton] at he
          subst he
          exact hcash'
    · rw [if_neg h2]
      exact Inv_stepSignal c t bar sig st hbar hsig hc1 h
  · rw [if_neg h1]
    exact Inv_stepSignal c t bar sig st hbar hsig hc1 h

/-- Helper: the whole bar loop preserves the loop invariant when every
bar has positive open/low/close and every signal is coerced. -/
theorem Inv_runBars (c sl : ℚ) (hc1 : c < 1) (l : List (Bar × Int))
    (hl : ∀ bs ∈ l, (0 < bs.1.open_ ∧ 0 < bs.1.low ∧ 0 < bs.1.close) ∧
      (bs.2 = -1 ∨ bs.2 = 0 ∨ bs.2 = 1)) :
    ∀ (t : ℕ) (st : BTState), Inv st → Inv (runBars c sl t l st) := by
  induction l with
  | nil => exact fun t st h => h
  | cons bs rest ih =>
    intro t st h
    obtain ⟨b, s⟩ := bs
    have hb := hl (b, s) (List.mem_cons_self _ _)
    have hrest := fun x hx => hl x (List.mem_cons_of_mem _ hx)
    show Inv (runBars c sl (t + 1) rest (stepBar c sl t b s st))
    exact ih hrest (t + 1) _ (Inv_stepBar c sl t b s st hb.1 hb.2 hc1 h)

/-- C6 as stated is false on the code: the entry branch tests only
`last_signal <= 0 and signal == 1 and price_open > 0` and never checks
that the position is flat.  A bar with a missing (0) open suppresses
the signal exit via the `price_open > 0` guard while leaving the
position open, after which a fresh +1 signal appends a second
consecutive BUY (with the stale position silently overwritten by a
0-amount one). -/
theorem run_backtest_alternation_counterexample :
    (run_backtest c6bars c6sigs 1000 0 0).trades.map Trade.side = ["BUY", "BUY"] ∧
    altOK (run_backtest c6bars c6sigs 1000 0 0).trades = false := by
  norm_num [run_backtest, runBars, stepBar, stepSignal, coerceSignal, initState,
    c6bars, c6sigs, altOK, isBuy]

/-- C6 (amended): on inputs all of whose bars have positive open, low
and close prices (as the PriceBar data model prescribes), with
positive initial cash and commission rate in [0,1), the trade log of
`run_backtest` strictly alternates: no two consecutive BUYs without an
intervening SELL / SELL (SL) and vice versa. -/
theorem run_backtest_alternation (bars : List Bar) (signals : List (Option ℚ))
    (initial_cash commission_rate stop_loss : ℚ)
    (hb : ∀ b ∈ bars, 0 < b.open_ ∧ 0 < b.low ∧ 0 < b.close)
    (hic : 0 < initial_cash) (hc1 : commission_rate < 1) :
    altOK (run_backtest bars signals initial_cash commission_rate stop_loss).trades
      = true := by
  have hinit : Inv (initState initial_cash) := by
    refine ⟨le_of_lt hic, le_refl 0, ?_, fun _ => ⟨hic, rfl⟩, rfl, ?_⟩
    · intro hlt
      exact absurd hlt (lt_irrefl 0)
    · intro e he
      cases he
  have hl : ∀ bs ∈ bars.zip (signals.map coerceSignal),
      (0 < bs.1.open_ ∧ 0 < bs.1.low ∧ 0 < bs.1.close) ∧
      (bs.2 = -1 ∨ bs.2 = 0 ∨ bs.2 = 1) := by
    intro bs hbs
    obtain ⟨b, s⟩ := bs
    have hm := List.of_mem_zip hbs
    refine ⟨hb b hm.1, ?_⟩
    obtain ⟨x, -, rfl⟩ := List.mem_map.mp hm.2
    exact coerceSignal_range x
  exact (Inv_runBars commission_rate stop_loss hc1 _ hl 0 _ hinit).2.2.2.2.1

/-- Witness for the amended C6 on the §8 example scenario. -/
theorem run_backtest_alternation_witness :
    altOK (run_backtest c1bars c1sigs 1000 0 0).trades = true := by
  refine run_backtest_alternation c1bars c1sigs 1000 0 0 ?_ (by norm_num) (by norm_num)
  intro b hb
  simp only [c1bars, List.mem_cons, List.not_mem_nil, or_false] at hb
  rcases hb with rfl | rfl | rfl <;> norm_num

/-! Claim C3 -/

/-- Helper: marking to market over non-negative amounts and positive
(where present) closes yields at least the starting accumulator. -/
theorem peFold_ge (price : String → ℕ → PBar) (t : ℕ)
    (l : List (String × PPos))
    (hl : ∀ sp ∈ l, 0 ≤ sp.2.amount ∧ posOpt (price sp.1 t).close) :
    ∀ acc : ℚ, acc ≤ l.foldl (fun acc sp =>
      match (price sp.1 t).close with
      | some close_price => acc + sp.2.amount * close_price
      | none => acc) acc := by
  induction l with
  | nil => exact fun acc => le_refl acc
  | cons sp rest ih =>
    intro acc
    have h1 := hl sp (List.mem_cons_self _ _)
    have hrest := fun x hx => hl x (List.mem_cons_of_mem _ hx)
    rw [List.foldl_cons]
    refine le_trans ?_ (ih hrest _)
    rcases hcl : (price sp.1 t).close with _ | cp
    · exact le_rfl
    · have hcp : 0 < cp := by
        have := h1.2
        rw [hcl] at this
        exact this
      show acc ≤ acc + sp.2.amount * cp
      nlinarith [mul_nonneg h1.1 (le_of_lt hcp)]

/-- Helper: total equity is non-negative under the loop invariant and
positive present closes. -/
theorem totalEquityAt_nonneg (price : String → ℕ → PBar) (t : ℕ) (cash : ℚ)
    (positions : List (String × PPos)) (hc : 0 ≤ cash)
    (hl : ∀ sp ∈ positions, 0 ≤ sp.2.amount ∧ posOpt (price sp.1 t).close) :
    0 ≤ totalEquityAt price t cash positions := by
  unfold totalEquityAt
  have h0 := peFold_ge price t positions hl 0
  linarith

/-- Helper: one stop-loss body application never decreases cash (a
firing position has a non-negative amount and, since its present low
is positive and at or below the stop price, a non-negative stop
price). -/
theorem slBody_cash_ge (commission_rate stop_loss : ℚ)
    (price : String → ℕ → PBar) (t : ℕ) (hc1 : commission_rate ≤ 1)
    (acc : ℚ × List PTrade × List String) (sp : String × PPos)
    (hsp : 0 ≤ sp.2.amount ∧ posOpt (price sp.1 t).low) :
    acc.1 ≤ (slBody commission_rate stop_loss price t acc sp).1 := by
  unfold slBody
  rcases hlo : (price sp.1 t).low with _ | lv
  · exact le_rfl
  · by_cases hle : lv ≤ sp.2.entry_price * (1 - stop_loss)
    · have hlv : 0 < lv := by
        have := hsp.2
        rw [hlo] at this
        exact this
      have hstop : 0 ≤ sp.2.entry_price * (1 - stop_loss) := le_trans (le_of_lt hlv) hle
      simp only [hle, if_true]
      show acc.1 ≤ acc.1 + sp.2.amount * (sp.2.entry_price * (1 - stop_loss)) -
        sp.2.amount * (sp.2.entry_price * (1 - stop_loss)) * commission_rate
      nlinarith [mul_nonneg (mul_nonneg hsp.1 hstop) (sub_nonneg.mpr hc1)]
    · simp [hle]

/-- Helper: the stop-loss fold never decreases cash. -/
theorem slFold_cash_ge (commission_rate stop_loss : ℚ)
    (price : String → ℕ → PBar) (t : ℕ)
    (hc1 : commission_rate ≤ 1) (l : List (String × PPos))
    (hl : ∀ sp ∈ l, 0 ≤ sp.2.amount ∧ posOpt (price sp.1 t).low) :
    ∀ acc, acc.1 ≤ (l.foldl (slBody commission_rate stop_loss price t) acc).1 := by
  induction l with
  | nil => exact fun acc => le_refl _
  | cons sp rest ih =>
    intro acc
    have h1 := hl sp (List.mem_cons_self _ _)
    have hrest := fun x hx => hl x (List.mem_cons_of_mem _ hx)
    rw [List.foldl_cons]
    exact le_trans (slBody_cash_ge commission_rate stop_loss price t hc1 acc sp h1)
      (ih hrest _)

/-- Helper: the stop-loss pass preserves the portfolio invariant. -/
theorem PInv_slPass (symbols : List String) (commission_rate stop_loss : ℚ)
    (price : String → ℕ → PBar) (t : ℕ) (st : PState)
    (hc1 : commission_rate ≤ 1)
    (hlow : ∀ sp ∈ st.positions, posOpt (price sp.1 t).low)
    (h : PInv symbols st) :
    PInv symbols (slPass commission_rate stop_loss price t st) := by
  constructor
  · have := slFold_cash_ge commission_rate stop_loss price t hc1 st.positions
      (fun sp hsp => ⟨(h.2 sp hsp).1, hlow sp hsp⟩) (st.cash, st.trades, [])
    exact le_trans h.1 this
  · intro sp hsp
    simp only [slPass, List.mem_filter] at hsp
    exact h.2 sp hsp.1

/-- Helper: a successful association-list lookup is a member. -/
theorem lookup_mem {β : Type} (l : List (String × β)) (k : String) (v : β)
    (h : l.lookup k = some v) : (k, v) ∈ l := by
  induction l with
  | nil => cases h
  | cons p rest ih =>
    rw [List.lookup_cons] at h
    cases hk : (k == p.1) with
    | true =>
      simp only [hk] at h
      have hkeq : k = p.1 := by simpa using hk
      have hp : p = (k, v) := by
        obtain ⟨a, b⟩ := p
        simp only [Option.some.injEq] at h
        simp only [Prod.mk.injEq]
        exact ⟨hkeq.symm, h⟩
      rw [hp]
      exact List.mem_cons_self _ _
    | false =>
      simp only [hk] at h
      exact List.mem_cons_of_mem _ (ih h)

/-- Helper: the signal-pass body preserves the portfolio invariant,
given a non-negative allocation target, commission in [0,1], and a
positive present open for the symbol. -/
theorem PInv_sigBody (symbols : List String) (allocation commission_rate : ℚ)
    (price : String → ℕ → PBar) (signal : String → ℕ → Option ℚ) (t : ℕ)
    (total_equity : ℚ) (st : PState) (sym : String)
    (hc0 : 0 ≤ commission_rate) (hc1 : commission_rate ≤ 1)
    (hte : 0 ≤ total_equity * allocation)
    (hopen : posOpt (price sym t).open_) (hsym : sym ∈ symbols)
    (h : PInv symbols st) :
    PInv symbols
      (sigBody allocation commission_rate price signal t total_equity st sym) := by
  unfold sigBody
  rcases hl : st.positions.lookup sym with _ | pos
  · -- no open position: entry branch
    by_cases hs : ((signal sym t).getD 0) = 1
    · by_cases hcap : total_equity * allocation ≤ st.cash
      · rcases ho : (price sym t).open_ with _ | po
        · simpa [hs, hcap, ho] using h
        · have hpo : 0 < po := by
            have := hopen
            rw [ho] at this
            exact this
          simp only [hs, hcap, ho, if_true, if_pos]
          constructor
          · show 0 ≤ st.cash - total_equity * allocation
            linarith
          · intro sp hsp
            rcases List.mem_append.mp hsp with hsp | hsp
            · exact h.2 sp hsp
            · simp only [List.mem_singleton] at hsp
              subst hsp
              refine ⟨?_, hpo, hsym⟩
              show 0 ≤ (total_equity * allocation -
                total_equity * allocation * commission_rate) / po
              apply div_nonneg ?_ (le_of_lt hpo)
              nlinarith
      · simpa [hs, hcap] using h
    · simpa [hs] using h
  · -- open position: exit branch
    have hmem := lookup_mem st.positions sym pos hl
    have hpos := h.2 (sym, pos) hmem
    by_cases hs : ((signal sym t).getD 0) ≤ 0
    · rcases ho : (price sym t).open_ with _ | po
      · simpa [hs, ho] using h
      · have hpo : 0 < po := by
          have := hopen
          rw [ho] at this
          exact this
        simp only [hs, ho, if_true]
        constructor
        · show 0 ≤ st.cash + pos.amount * po - pos.amount * po * commission_rate
          nlinarith [h.1, mul_nonneg hpos.1 (le_of_lt hpo)]
        · intro sp hsp
          simp only [List.mem_filter] at hsp
          exact h.2 sp hsp.1
    · simpa [hs] using h

/-- Helper: the signal-pass fold preserves the portfolio invariant. -/
theorem PInv_sigFold (symbols : List String) (allocation commission_rate : ℚ)
    (price : String → ℕ → PBar) (signal : String → ℕ → Option ℚ) (t : ℕ)
    (total_equity : ℚ)
    (hc0 : 0 ≤ commission_rate) (hc1 : commission_rate ≤ 1)
    (hte : 0 ≤ total_equity * allocation)
    (syms : List String) (hsub : ∀ s ∈ syms, s ∈ symbols)
    (hopen : ∀ s ∈ syms, posOpt (price s t).open_) :
    ∀ st : PState, PInv symbols st →
      PInv symbols (syms.foldl
        (sigBody allocation commission_rate price signal t total_equity) st) := by
  induction syms with
  | nil => exact fun st h => h
  | cons s rest ih =>
    intro st h
    rw [List.foldl_cons]
    exact ih (fun x hx => hsub x (List.mem_cons_of_mem _ hx))
      (fun x hx => hopen x (List.mem_cons_of_mem _ hx)) _
      (PInv_sigBody symbols allocation commission_rate price signal t total_equity
        st s hc0 hc1 hte (hopen s (List.mem_cons_self _ _))
        (hsub s (List.mem_cons_self _ _)) h)

/-- Helper: a full portfolio timestamp step preserves the portfolio
invariant when the bar's present prices are positive. -/
theorem PInv_portfolioStep (symbols : List String)
    (allocation commission_rate stop_loss : ℚ)
    (price : String → ℕ → PBar) (signal : String → ℕ → Option ℚ)
    (t : ℕ) (st : PState)
    (halloc : 0 ≤ allocation) (hc0 : 0 ≤ commission_rate)
    (hc1 : commission_rate ≤ 1)
    (hpx : ∀ sym ∈ symbols, posOpt (price sym t).open_ ∧
      posOpt (price sym t).low ∧ posOpt (price sym t).close)
    (h : PInv symbols st) :
    PInv symbols
      (portfolioStep allocation commission_rate stop_loss price signal symbols st t) := by
  have hte : 0 ≤ totalEquityAt price t st.cash st.positions * allocation := by
    refine mul_nonneg ?_ halloc
    refine totalEquityAt_nonneg price t st.cash st.positions h.1 ?_
    intro sp hsp
    exact ⟨(h.2 sp hsp).1, (hpx sp.1 (h.2 sp hsp).2.2).2.2⟩
  have h1 : PInv symbols (slPass commission_rate stop_loss price t st) :=
    PInv_slPass symbols commission_rate stop_loss price t st hc1
      (fun sp hsp => (hpx sp.1 (h.2 sp hsp).2.2).2.1) h
  have h2 := PInv_sigFold symbols allocation commission_rate price signal t
    (totalEquityAt price t st.cash st.positions) hc0 hc1 hte symbols
    (fun s hs => hs) (fun s hs => (hpx s hs).1) _ h1
  exact ⟨h2.1, h2.2⟩

/-- Helper: the timestamp loop preserves the portfolio invariant. -/
theorem PInv_runTimestamps (symbols : List String)
    (allocation commission_rate stop_loss : ℚ)
    (price : String → ℕ → PBar) (signal : String → ℕ → Option ℚ)
    (halloc : 0 ≤ allocation) (hc0 : 0 ≤ commission_rate)
    (hc1 : commission_rate ≤ 1) (ts : List ℕ)
    (hpx : ∀ sym ∈ symbols, ∀ t ∈ ts, posOpt (price sym t).open_ ∧
      posOpt (price sym t).low ∧ posOpt (price sym t).close) :
    ∀ st : PState, PInv symbols st →
      PInv symbols (ts.foldl
        (portfolioStep allocation commission_rate stop_loss price signal symbols) st) := by
  induction ts with
  | nil => exact fun st h => h
  | cons t rest ih =>
    intro st h
    rw [List.foldl_cons]
    refine ih (fun sym hsym x hx => hpx sym hsym x (List.mem_cons_of_mem _ hx)) _ ?_
    exact PInv_portfolioStep symbols allocation commission_rate stop_loss price signal
      t st halloc hc0 hc1 (fun sym hsym => hpx sym hsym t (List.mem_cons_self _ _)) h

/-- C3: the portfolio engine's shared cash balance never goes
negative: an entry debits exactly `capital_to_allocate` and only fires
when `cash ≥ capital_to_allocate` (visible in `sigBody`), and every
exit and stop-loss sale only credits cash.  Stated for every valid
input (non-negative initial cash and allocation fraction, commission
in [0,1], positive prices where present); the run over any prefix of
the timestamps is itself an instance of this statement, so the cash
balance is non-negative after every processed timestamp. -/
theorem portfolio_cash_nonneg (symbols : List String) (timestamps : List ℕ)
    (price : String → ℕ → PBar) (signal : String → ℕ → Option ℚ)
    (initial_cash allocation commission_rate stop_loss : ℚ)
    (hic : 0 ≤ initial_cash) (halloc : 0 ≤ allocation)
    (hc0 : 0 ≤ commission_rate) (hc1 : commission_rate ≤ 1)
    (hpx : ∀ sym ∈ symbols, ∀ t ∈ timestamps, posOpt (price sym t).open_ ∧
      posOpt (price sym t).low ∧ posOpt (price sym t).close) :
    0 ≤ (run_portfolio_backtest symbols timestamps price signal initial_cash
      allocation commission_rate stop_loss).cash := by
  have hinit : PInv symbols (⟨initial_cash, [], [], []⟩ : PState) := by
    refine ⟨hic, ?_⟩
    intro sp hsp
    cases hsp
  exact (PInv_runTimestamps symbols allocation commission_rate stop_loss price signal
    halloc hc0 hc1 timestamps hpx _ hinit).1

/-- Witness for C3 at a concrete two-timestamp single-symbol input. -/
theorem portfolio_cash_nonneg_witness :
    0 ≤ (run_portfolio_backtest ["A"] [0, 1] px5 sigB5 1000 1 0 (1/2)).cash := by
  refine portfolio_cash_nonneg ["A"] [0, 1] px5 sigB5 1000 1 0 (1/2)
    (by norm_num) (by norm_num) (by norm_num) (by norm_num) ?_
  intro sym hsym t ht
  simp only [List.mem_cons, List.not_mem_nil, or_false] at ht
  rcases ht with rfl | rfl <;> exact ⟨by norm_num [px5, posOpt], by norm_num [px5, posOpt],
    by norm_num [px5, posOpt]⟩

/-! Claim C8 -/

/-- Helper: a value produced by `getLast?` is a member of the list. -/
theorem getLast?_mem_list {α : Type} (l : List α) (x : α)
    (h : l.getLast? = some x) : x ∈ l := by
  obtain ⟨hne, rfl⟩ := List.mem_getLast?_eq_getLast h
  exact List.getLast_mem hne

/-- Helper: the signal part of a bar step preserves the
commission-scaling relation; `k` counts the trades the bar adds (the
same number in both runs). -/
theorem Rel_stepSignal (c s : ℚ) (hs : 0 < s) (t : ℕ) (bar : Bar) (sig : Int)
    (st0 stc : BTState) (h : Rel s st0 stc) :
    ∃ k : ℕ, k ≤ 1 ∧
      (stepSignal 0 t bar sig st0).trades.length = st0.trades.length + k ∧
      Rel (s * (1 - c) ^ k) (stepSignal 0 t bar sig st0)
        (stepSignal c t bar sig stc) := by
  obtain ⟨hcash, hpos, hep, hls, hlen, heq⟩ := h
  unfold stepSignal
  by_cases h1 : st0.last_signal ≤ 0 ∧ sig = 1 ∧ bar.open_ > 0
  · have h1c : stc.last_signal ≤ 0 ∧ sig = 1 ∧ bar.open_ > 0 := by
      rw [hls]; exact h1
    rw [if_pos h1, if_pos h1c]
    exact ⟨1, le_refl 1,
      (by show (st0.trades ++ [Trade.mk t "BUY" bar.open_
            (st0.cash * (1 - 0) / bar.open_) (st0.cash * 0)]).length =
          st0.trades.length + 1
          simp),
      (by show (0 : ℚ) = s * (1 - c) ^ 1 * 0
          ring),
      (by show stc.cash * (1 - c) / bar.open_ =
            s * (1 - c) ^ 1 * (st0.cash * (1 - 0) / bar.open_)
          rw [hcash]; ring),
      rfl, rfl,
      (by show (stc.trades ++ [Trade.mk t "BUY" bar.open_
            (stc.cash * (1 - c) / bar.open_) (stc.cash * c)]).length =
          (st0.trades ++ [Trade.mk t "BUY" bar.open_
            (st0.cash * (1 - 0) / bar.open_) (st0.cash * 0)]).length
          simp [hlen]),
      (by show (stc.equity_list ++
            [0 + stc.cash * (1 - c) / bar.open_ * bar.close]).getLast? =
          ((st0.equity_list ++
            [0 + st0.cash * (1 - 0) / bar.open_ * bar.close]).getLast?).map
            (fun e => s * (1 - c) ^ 1 * e)
          rw [List.getLast?_concat, List.getLast?_concat]
          simp only [Option.map_some']
          congr 1
          rw [hcash]; ring)⟩
  · have h1c : ¬(stc.last_signal ≤ 0 ∧ sig = 1 ∧ bar.open_ > 0) := by
      rw [hls]; exact h1
    rw [if_neg h1, if_neg h1c]
    by_cases h2 : st0.last_signal = 1 ∧ sig ≤ 0 ∧ st0.position > 0 ∧ bar.open_ > 0
    · have h2c : stc.last_signal = 1 ∧ sig ≤ 0 ∧ stc.position > 0 ∧ bar.open_ > 0 := by
        refine ⟨by rw [hls]; exact h2.1, h2.2.1, ?_, h2.2.2.2⟩
        rw [hpos]
        exact mul_pos hs h2.2.2.1
      rw [if_pos h2, if_pos h2c]
      exact ⟨1, le_refl 1,
        (by show (st0.trades ++ [Trade.mk t "SELL" bar.open_ st0.position
              (st0.position * bar.open_ * 0)]).length = st0.trades.length + 1
            simp),
        (by show stc.position * bar.open_ * (1 - c) =
              s * (1 - c) ^ 1 * (st0.position * bar.open_ * (1 - 0))
            rw [hpos]; ring),
        (by show (0 : ℚ) = s * (1 - c) ^ 1 * 0
            ring),
        hep, rfl,
        (by show (stc.trades ++ [Trade.mk t "SELL" bar.open_ stc.position
              (stc.position * bar.open_ * c)]).length =
            (st0.trades ++ [Trade.mk t "SELL" bar.open_ st0.position
              (st0.position * bar.open_ * 0)]).length
            simp [hlen]),
        (by show (stc.equity_list ++
              [stc.position * bar.open_ * (1 - c) + 0 * bar.close]).getLast? =
            ((st0.equity_list ++
              [st0.position * bar.open_ * (1 - 0) + 0 * bar.close]).getLast?).map
              (fun e => s * (1 - c) ^ 1 * e)
            rw [List.getLast?_concat, List.getLast?_concat]
            simp only [Option.map_some']
            congr 1
            rw [hpos]; ring)⟩
    · have h2c : ¬(stc.last_signal = 1 ∧ sig ≤ 0 ∧ stc.position > 0 ∧ bar.open_ > 0) := by
        intro hc
        refine h2 ⟨by rw [← hls]; exact hc.1, hc.2.1, ?_, hc.2.2.2⟩
        have hcp := hc.2.2.1
        rw [hpos] at hcp
        exact (mul_pos_iff_of_pos_left hs).mp hcp
      rw [if_neg h2, if_neg h2c]
      exact ⟨0, Nat.zero_le 1,
        (by show st0.trades.length = st0.trades.length + 0
            simp),
        (by show stc.cash = s * (1 - c) ^ 0 * st0.cash
            rw [hcash]; ring),
        (by show stc.position = s * (1 - c) ^ 0 * st0.position
            rw [hpos]; ring),
        hep, rfl,
        (by show stc.trades.length = st0.trades.length
            exact hlen),
        (by show (stc.equity_list ++
              [stc.cash + stc.position * bar.close]).getLast? =
            ((st0.equity_list ++
              [st0.cash + st0.position * bar.close]).getLast?).map
              (fun e => s * (1 - c) ^ 0 * e)
            rw [List.getLast?_concat, List.getLast?_concat]
            simp only [Option.map_some']
            congr 1
            rw [hcash, hpos]; ring)⟩

/-- Helper: a full bar step preserves the commission-scaling
relation. -/
theorem Rel_stepBar (c sl s : ℚ) (hs : 0 < s) (t : ℕ) (bar : Bar) (sig : Int)
    (st0 stc : BTState) (h : Rel s st0 stc) :
    ∃ k : ℕ, k ≤ 1 ∧
      (stepBar 0 sl t bar sig st0).trades.length = st0.trades.length + k ∧
      Rel (s * (1 - c) ^ k) (stepBar 0 sl t bar sig st0)
        (stepBar c sl t bar sig stc) := by
  obtain ⟨hcash, hpos, hep, hls, hlen, heq⟩ := h
  unfold stepBar
  by_cases h1 : st0.position > 0 ∧ sl > 0
  · have h1c : stc.position > 0 ∧ sl > 0 :=
      ⟨by rw [hpos]; exact mul_pos hs h1.1, h1.2⟩
    rw [if_pos h1, if_pos h1c, hep]
    rcases hee : st0.entry_price with _ | p
    · exact Rel_stepSignal c s hs t bar sig st0 stc
        ⟨hcash, hpos, hep, hls, hlen, heq⟩
    · dsimp only
      by_cases h2 : bar.low ≤ p * (1 - sl)
      · rw [if_pos h2, if_pos h2]
        exact ⟨1, le_refl 1,
          (by show (st0.trades ++ [Trade.mk t "SELL (SL)" (p * (1 - sl))
                st0.position (st0.position * (p * (1 - sl)) * 0)]).length =
              st0.trades.length + 1
              simp),
          (by show stc.position * (p * (1 - sl)) * (1 - c) =
                s * (1 - c) ^ 1 * (st0.position * (p * (1 - sl)) * (1 - 0))
              rw [hpos]; ring),
          (by show (0 : ℚ) = s * (1 - c) ^ 1 * 0
              ring),
          rfl, rfl,
          (by show (stc.trades ++ [Trade.mk t "SELL (SL)" (p * (1 - sl))
                stc.position (stc.position * (p * (1 - sl)) * c)]).length =
              (st0.trades ++ [Trade.mk t "SELL (SL)" (p * (1 - sl))
                st0.position (st0.position * (p * (1 - sl)) * 0)]).length
              simp [hlen]),
          (by show (stc.equity_list ++
                [stc.position * (p * (1 - sl)) * (1 - c)]).getLast? =
              ((st0.equity_list ++
                [st0.position * (p * (1 - sl)) * (1 - 0)]).getLast?).map
                (fun e => s * (1 - c) ^ 1 * e)
              rw [List.getLast?_concat, List.getLast?_concat]
              simp only [Option.map_some']
              congr 1
              rw [hpos]; ring)⟩
      · rw [if_neg h2, if_neg h2]
        exact Rel_stepSignal c s hs t bar sig st0 stc
          ⟨hcash, hpos, hep, hls, hlen, heq⟩
  · have h1c : ¬(stc.position > 0 ∧ sl > 0) := by
      intro hcon
      have hp := hcon.1
      rw [hpos] at hp
      exact h1 ⟨(mul_pos_iff_of_pos_left hs).mp hp, hcon.2⟩
    rw [if_neg h1, if_neg h1c]
    exact Rel_stepSignal c s hs t bar sig st0 stc
      ⟨hcash, hpos, hep, hls, hlen, heq⟩

/-- Helper: the whole bar loop preserves the commission-scaling
relation, with `k` the total number of trades both runs record. -/
theorem Rel_runBars (c sl : ℚ) (hc1 : c < 1) (l : List (Bar × Int)) :
    ∀ (t : ℕ) (s : ℚ), 0 < s → ∀ st0 stc, Rel s st0 stc →
      ∃ k : ℕ, (runBars 0 sl t l st0).trades.length = st0.trades.length + k ∧
        Rel (s * (1 - c) ^ k) (runBars 0 sl t l st0) (runBars c sl t l stc) := by
  induction l with
  | nil =>
    intro t s hs st0 stc h
    exact ⟨0, by simp [runBars], by simpa using h⟩
  | cons bs rest ih =>
    intro t s hs st0 stc h
    obtain ⟨b, sg⟩ := bs
    obtain ⟨k1, hk1le, hk1, hrel1⟩ := Rel_stepBar c sl s hs t b sg st0 stc h
    have hs1 : 0 < s * (1 - c) ^ k1 :=
      mul_pos hs (pow_pos (by linarith) k1)
    obtain ⟨k2, hk2, hrel2⟩ := ih (t + 1) (s * (1 - c) ^ k1) hs1 _ _ hrel1
    refine ⟨k1 + k2, ?_, ?_⟩
    · show (runBars 0 sl (t + 1) rest (stepBar 0 sl t b sg st0)).trades.length =
        st0.trades.length + (k1 + k2)
      rw [hk2, hk1]
      omega
    · have hsc : s * (1 - c) ^ k1 * (1 - c) ^ k2 = s * (1 - c) ^ (k1 + k2) := by
        rw [pow_add]; ring
      show Rel (s * (1 - c) ^ (k1 + k2))
        (runBars 0 sl (t + 1) rest (stepBar 0 sl t b sg st0))
        (runBars c sl (t + 1) rest (stepBar c sl t b sg stc))
      rw [← hsc]
      exact hrel2

/-- Helper: each bar step appends exactly one equity point. -/
theorem stepSignal_equity_length (c : ℚ) (t : ℕ) (bar : Bar) (sig : Int)
    (st : BTState) :
    (stepSignal c t bar sig st).equity_list.length = st.equity_list.length + 1 := by
  unfold stepSignal
  by_cases h1 : st.last_signal ≤ 0 ∧ sig = 1 ∧ bar.open_ > 0
  · rw [if_pos h1]
    simp
  · rw [if_neg h1]
    by_cases h2 : st.last_signal = 1 ∧ sig ≤ 0 ∧ st.position > 0 ∧ bar.open_ > 0
    · rw [if_pos h2]
      simp
    · rw [if_neg h2]
      simp

/-- Helper: each full bar step appends exactly one equity point. -/
theorem stepBar_equity_length (c sl : ℚ) (t : ℕ) (bar : Bar) (sig : Int)
    (st : BTState) :
    (stepBar c sl t bar sig st).equity_list.length = st.equity_list.length + 1 := by
  unfold stepBar
  by_cases h1 : st.position > 0 ∧ sl > 0
  · rw [if_pos h1]
    rcases hep : st.entry_price with _ | p
    · exact stepSignal_equity_length c t bar sig st
    · dsimp only
      by_cases h2 : bar.low ≤ p * (1 - sl)
      · rw [if_pos h2]
        simp
      · rw [if_neg h2]
        exact stepSignal_equity_length c t bar sig st
  · rw [if_neg h1]
    exact stepSignal_equity_length c t bar sig st

/-- Helper: the equity trace grows by exactly one point per bar. -/
theorem runBars_equity_length (c sl : ℚ) (l : List (Bar × Int)) :
    ∀ (t : ℕ) (st : BTState),
      (runBars c sl t l st).equity_list.length =
        st.equity_list.length + l.length := by
  induction l with
  | nil => intro t st; simp [runBars]
  | cons bs rest ih =>
    intro t st
    obtain ⟨b, sg⟩ := bs
    show (runBars c sl (t + 1) rest (stepBar c sl t b sg st)).equity_list.length = _
    rw [ih (t + 1) _, stepBar_equity_length]
    simp [List.length_cons]
    omega

/-- C8 as stated is false on the code: when no trade ever fires, the
run degenerates to holding cash, and the final equity is the same for
every commission rate — here 1000 at both rate 0 and rate 1/2 — so
final equity is not *strictly* decreasing in the commission rate. -/
theorem commission_drag_counterexample :
    (0 : ℚ) < 1 / 2 ∧ (1 / 2 : ℚ) < 1 ∧
    (run_backtest c8bars c8sigs 1000 0 0).equity_list.getLast? = some 1000 ∧
    (run_backtest c8bars c8sigs 1000 (1 / 2) 0).equity_list.getLast? = some 1000 := by
  refine ⟨by norm_num, by norm_num, ?_, ?_⟩ <;>
    norm_num [run_backtest, runBars, stepBar, stepSignal, coerceSignal, initState,
      c8bars, c8sigs]

/-- C8 (amended): for a fixed positive-price bar series and fixed
signals, with positive initial cash, the final equity of `run_backtest`
is strictly decreasing in the commission rate over [0, 1) *provided at
least one trade occurs*.  Proof: the branch decisions are independent
of the commission rate, so the run at rate `c` is the run at rate 0
with cash/position scaled by `(1-c)^k` after `k` trades, and the final
equity at rate 0 is positive. -/
theorem run_backtest_commission_drag (bars : List Bar) (signals : List (Option ℚ))
    (initial_cash stop_loss c1 c2 : ℚ)
    (hb : ∀ b ∈ bars, 0 < b.open_ ∧ 0 < b.low ∧ 0 < b.close)
    (hic : 0 < initial_cash) (h12 : c1 < c2) (h21 : c2 < 1)
    (ht : (run_backtest bars signals initial_cash c1 stop_loss).trades ≠ []) :
    ∃ e1 e2,
      (run_backtest bars signals initial_cash c1 stop_loss).equity_list.getLast?
        = some e1 ∧
      (run_backtest bars signals initial_cash c2 stop_loss).equity_list.getLast?
        = some e2 ∧
      e2 < e1 := by
  have hrel0 : Rel 1 (initState initial_cash) (initState initial_cash) :=
    ⟨(one_mul _).symm, (one_mul _).symm, rfl, rfl, rfl, rfl⟩
  have hc1lt : c1 < 1 := lt_trans h12 h21
  obtain ⟨k1, hk1, hrel1⟩ := Rel_runBars c1 stop_loss hc1lt
    (bars.zip (signals.map coerceSignal)) 0 1 one_pos _ _ hrel0
  obtain ⟨k2, hk2, hrel2⟩ := Rel_runBars c2 stop_loss h21
    (bars.zip (signals.map coerceSignal)) 0 1 one_pos _ _ hrel0
  have hkk : k1 = k2 := by omega
  have htlen : (run_backtest bars signals initial_cash c1 stop_loss).trades.length =
      (runBars 0 stop_loss 0 (bars.zip (signals.map coerceSignal))
        (initState initial_cash)).trades.length := hrel1.2.2.2.2.1
  have hk1pos : k1 ≠ 0 := by
    intro h0
    apply ht
    have hlen0 : (run_backtest bars signals initial_cash c1 stop_loss).trades.length
        = 0 := by
      rw [htlen, hk1]
      simp [initState, h0]
    exact List.length_eq_zero.mp hlen0
  have hlne : bars.zip (signals.map coerceSignal) ≠ [] := by
    intro h0
    rw [h0] at hk1
    simp [runBars, initState] at hk1
    exact hk1pos hk1.symm
  have heqlen : (runBars 0 stop_loss 0 (bars.zip (signals.map coerceSignal))
      (initState initial_cash)).equity_list.length =
      (bars.zip (signals.map coerceSignal)).length := by
    rw [runBars_equity_length]
    simp [initState]
  obtain ⟨E0, hE0⟩ : ∃ E0, (runBars 0 stop_loss 0
      (bars.zip (signals.map coerceSignal))
      (initState initial_cash)).equity_list.getLast? = some E0 := by
    rcases hE : (runBars 0 stop_loss 0 (bars.zip (signals.map coerceSignal))
        (initState initial_cash)).equity_list.getLast? with _ | E0
    · exfalso
      rw [List.getLast?_eq_none_iff] at hE
      rw [hE] at heqlen
      simp only [List.length_nil] at heqlen
      exact hlne (List.length_eq_zero.mp heqlen.symm)
    · exact ⟨E0, rfl⟩
  have hInv : Inv (runBars 0 stop_loss 0 (bars.zip (signals.map coerceSignal))
      (initState initial_cash)) := by
    refine Inv_runBars 0 stop_loss (by norm_num) _ ?_ 0 _ ?_
    · intro bs hbs
      obtain ⟨b, sg⟩ := bs
      have hm := List.of_mem_zip hbs
      refine ⟨hb b hm.1, ?_⟩
      obtain ⟨x, -, rfl⟩ := List.mem_map.mp hm.2
      exact coerceSignal_range x
    · refine ⟨le_of_lt hic, le_refl 0, ?_, fun _ => ⟨hic, rfl⟩, rfl, ?_⟩
      · intro hlt
        exact absurd hlt (lt_irrefl 0)
      · intro e he
        cases he
  have hE0pos : 0 < E0 := hInv.2.2.2.2.2 E0 (getLast?_mem_list _ _ hE0)
  have he1 : (run_backtest bars signals initial_cash c1 stop_loss).equity_list.getLast?
      = some ((1 - c1) ^ k1 * E0) := by
    have h := hrel1.2.2.2.2.2
    rw [hE0] at h
    simpa using h
  have he2 : (run_backtest bars signals initial_cash c2 stop_loss).equity_list.getLast?
      = some ((1 - c2) ^ k1 * E0) := by
    have h := hrel2.2.2.2.2.2
    rw [hE0] at h
    rw [hkk]
    simpa using h
  refine ⟨(1 - c1) ^ k1 * E0, (1 - c2) ^ k1 * E0, he1, he2, ?_⟩
  have hpow : (1 - c2) ^ k1 < (1 - c1) ^ k1 :=
    pow_lt_pow_left₀ (by linarith) (by linarith) hk1pos
  exact mul_lt_mul_of_pos_right hpow hE0pos

/-- Witness for the amended C8 on the §8 example scenario, comparing
commission rates 0 and 1/2. -/
theorem run_backtest_commission_drag_witness :
    ∃ e1 e2,
      (run_backtest c1bars c1sigs 1000 0 0).equity_list.getLast? = some e1 ∧
      (run_backtest c1bars c1sigs 1000 (1 / 2) 0).equity_list.getLast? = some e2 ∧
      e2 < e1 := by
  refine run_backtest_commission_drag c1bars c1sigs 1000 0 0 (1 / 2) ?_
    (by norm_num) (by norm_num) (by norm_num) ?_
  · intro b hb
    simp only [c1bars, List.mem_cons, List.not_mem_nil, or_false] at hb
    rcases hb with rfl | rfl | rfl <;> norm_num
  · intro hcon
    rw [show (run_backtest c1bars c1sigs 1000 0 0).trades =
        [⟨0, "BUY", 100, 10, 0⟩, ⟨1, "SELL", 103, 10, 0⟩] from by
      norm_num [run_backtest, runBars, stepBar, stepSignal, coerceSignal,
        initState, c1bars, c1sigs]] at hcon
    exact List.cons_ne_nil _ _ hcon

end Trading
